import Mathlib

/-!
Verification of the dice-roll expression evaluator `roll.py`.

The Python program is shallowly embedded: the global `random` module is
modelled as a stream of naturals together with a cursor index
(`random.randint(1, sides)` reads one stream value and maps it into
`[1, sides]`); every Python exception that the evaluator can raise
(ValueError from `randint` or `max`/`min` of an empty list, KeyError from
the comparison-operator table, AttributeError from a failed clause
`fullmatch`, AssertionError from the damage-suffix assert) is modelled as
an `Except` error value.  Python's regexes are embedded as deterministic
parsing functions that realise the (unambiguous) leftmost/greedy/lazy
semantics of the concrete patterns appearing in the source.
-/

namespace Roll

/-- Errors corresponding to the Python exceptions the evaluator can raise.
`fuelOut` is the artificial out-of-fuel marker for the recursion in `roll`. -/
inductive Err where
  | valueError
  | keyError
  | attributeError
  | assertionError
  | fuelOut
deriving DecidableEq, Repr

/-- ASCII digit class, the regex class `\d` = `[0-9]`. -/
def isDig (c : Char) : Bool := 48 ≤ c.toNat && c.toNat ≤ 57

/-- ASCII alphanumeric class, the regex class `[0-9a-zA-Z]`. -/
def isAlnumC (c : Char) : Bool :=
  isDig c || (65 ≤ c.toNat && c.toNat ≤ 90) || (97 ≤ c.toNat && c.toNat ≤ 122)

/-- The regex class `[<>=!]` used by the comparison suffix. -/
def cmpChar (c : Char) : Bool := c = '<' || c = '>' || c = '=' || c = '!'

/-- The regex class `[-+]`. -/
def isSignChar (c : Char) : Bool := c = '+' || c = '-'

/-- Python `int` applied to a nonempty string of decimal digits. -/
def natValue (ds : List Char) : Nat := ds.foldl (fun a c => 10 * a + (c.toNat - 48)) 0

/-- The state of Python's global `random` module: an infinite stream of raw
draws together with the position of the next draw. -/
structure Rng where
  stream : Nat → Nat
  idx : Nat

/-- `random.randint(a, b)`: draws uniformly from `[a, b]` inclusive;
raises ValueError when the range is empty.  The raw stream value is mapped
into the range by a modulus, which preserves the support `[a, b]`. -/
def randint (a b : Int) (g : Rng) : Except Err (Int × Rng) :=
  if a ≤ b then
    .ok (a + (g.stream g.idx : Int) % (b - a + 1), ⟨g.stream, g.idx + 1⟩)
  else
    .error .valueError

/-- `d(sides, dice=n)` from `roll.py`:
`[random.randint(1, sides) for _ in range(dice)]`. -/
def dloop : Nat → Nat → Rng → Except Err (List Int × Rng)
  | 0, _, g => .ok ([], g)
  | n + 1, sides, g => do
    let (v, g1) ← randint 1 (sides : Int) g
    let (vs, g2) ← dloop n sides g1
    .ok (v :: vs, g2)

/-- The three reduction functions that can appear in `prefix_to_func`. -/
inductive Agg where
  | sum
  | max
  | min
deriving DecidableEq, Repr

/-- Application of an aggregation function to the rolled values.  Python's
`max`/`min` raise ValueError on an empty list; `sum([])` is `0`. -/
def applyAgg : Agg → List Int → Except Err Int
  | .sum, l => .ok l.sum
  | .max, [] => .error .valueError
  | .max, x :: xs => .ok (xs.foldl max x)
  | .min, [] => .error .valueError
  | .min, x :: xs => .ok (xs.foldl min x)

/-- The keyword `adv` as characters. -/
def kwAdv : List Char := ['a', 'd', 'v']

/-- The keyword `advantage` as characters. -/
def kwAdvantage : List Char := ['a', 'd', 'v', 'a', 'n', 't', 'a', 'g', 'e']

/-- The keyword `dis` as characters. -/
def kwDis : List Char := ['d', 'i', 's']

/-- The keyword `disadv` as characters. -/
def kwDisadv : List Char := ['d', 'i', 's', 'a', 'd', 'v']

/-- The keyword `disadvantage` as characters. -/
def kwDisadvantage : List Char := ['d', 'i', 's', 'a', 'd', 'v', 'a', 'n', 't', 'a', 'g', 'e']

/-- The keyword `sum` as characters. -/
def kwSum : List Char := ['s', 'u', 'm']

/-- The aggregation-prefix keywords, the keys of `prefix_to_func`. -/
def prefixStrings : List (List Char) :=
  [kwAdv, kwAdvantage, kwDis, kwDisadv, kwDisadvantage, kwSum]

/-- `prefix_to_func`: a defaultdict defaulting to `sum`, mapping
`adv`/`advantage` to `max` and `dis`/`disadv`/`disadvantage` to `min`. -/
def prefix_to_func (p : Option (List Char)) : Agg :=
  match p with
  | none => .sum
  | some s =>
    if s = kwAdv ∨ s = kwAdvantage then .max
    else if s = kwDis ∨ s = kwDisadv ∨ s = kwDisadvantage then .min
    else .sum

/-- List-prefix test (Boolean), as used for regex alternation of keywords. -/
def isPre : List Char → List Char → Bool
  | [], _ => true
  | _ :: _, [] => false
  | p :: ps, c :: cs => p == c && isPre ps cs

/-- The trailing part `(\d+)?[dD](\d+)` of `roll_pattern`, matched against
the whole remaining token (the final `(\d+)` is anchored at the end).
Returns the optional dice-count group and the sides group. -/
def matchTail (t : List Char) : Option (Option Nat × Nat) :=
  let ds := t.takeWhile isDig
  let r := t.dropWhile isDig
  match r with
  | c :: rest =>
    if c = 'd' ∨ c = 'D' then
      if !rest.isEmpty && rest.all isDig then
        some (if ds.isEmpty then none else some (natValue ds), natValue rest)
      else none
    else none
  | [] => none

/-- Alternation over the aggregation keywords inside `roll_pattern`:
the first keyword that is a prefix of the token and whose remainder
matches `(\d+)?[dD](\d+)` is selected (the alternation is unambiguous,
so the iteration order cannot change the result). -/
def tryKeywords : List (List Char) → List Char → Option (List Char × (Option Nat × Nat))
  | [], _ => none
  | p :: ps, t =>
    if isPre p t then
      match matchTail (t.drop p.length) with
      | some r => some (p, r)
      | none => tryKeywords ps t
    else tryKeywords ps t

/-- The optional leading `([-+])?` group of `roll_pattern`. -/
def splitSign (t : List Char) : Option Char × List Char :=
  match t with
  | c :: r => if c = '+' ∨ c = '-' then (some c, r) else (none, t)
  | [] => (none, t)

/-- `roll_pattern.fullmatch` on one token:
`([-+])?(adv|advantage|dis|disadv|disadvantage|sum)?(\d+)?[dD](\d+)`.
Returns the four groups (sign, aggregation keyword, dice count, sides). -/
def rollPatternFullmatch (t : List Char) :
    Option (Option Char × Option (List Char) × Option Nat × Nat) :=
  let (sg, t1) := splitSign t
  match tryKeywords prefixStrings t1 with
  | some (p, (dOpt, sides)) => some (sg, some p, dOpt, sides)
  | none =>
    match matchTail t1 with
    | some (dOpt, sides) => some (sg, none, dOpt, sides)
    | none => none

/-- `re.fullmatch(r"[-+]?\d+", tok)`: a signed integer literal token. -/
def isSignedIntTok (t : List Char) : Bool :=
  match t with
  | '+' :: rest => !rest.isEmpty && rest.all isDig
  | '-' :: rest => !rest.isEmpty && rest.all isDig
  | rest => !rest.isEmpty && rest.all isDig

/-- Python `int` applied to a token matching `[-+]?\d+`. -/
def intTokValue (t : List Char) : Int :=
  match t with
  | '+' :: rest => (natValue rest : Int)
  | '-' :: rest => -(natValue rest : Int)
  | rest => (natValue rest : Int)

/-- The scanning loop of `re.findall(r"[-+]?[0-9a-zA-Z]+", subroll)`:
the first argument is the token accumulated so far when the scanner is
inside a token.  A match begins at a position holding an alphanumeric
char, or a sign char directly followed by an alphanumeric char; it
extends over the maximal alphanumeric run; scanning resumes right after
a match, or at the next position after a failed start. -/
def tokenizeGo : Option (List Char) → List Char → List (List Char)
  | none, [] => []
  | some acc, [] => [acc]
  | none, c :: rest =>
    if isAlnumC c then tokenizeGo (some [c]) rest
    else if isSignChar c then
      match rest with
      | [] => []
      | r :: rs =>
        if isAlnumC r then tokenizeGo (some [c, r]) rs
        else tokenizeGo none (r :: rs)
    else tokenizeGo none rest
  | some acc, c :: rest =>
    if isAlnumC c then tokenizeGo (some (acc ++ [c])) rest
    else if isSignChar c then
      acc ::
        (match rest with
         | [] => []
         | r :: rs =>
           if isAlnumC r then tokenizeGo (some [c, r]) rs
           else tokenizeGo none (r :: rs))
    else acc :: tokenizeGo none rest

/-- `re.findall(r"[-+]?[0-9a-zA-Z]+", subroll)`: the leftmost
non-overlapping maximal tokens, an optional sign directly followed by a
nonempty alphanumeric run. -/
def tokenize (s : List Char) : List (List Char) := tokenizeGo none s

/-- One iteration of the token loop in `basic_roll`: a token matching
`roll_pattern` rolls and aggregates dice, a signed integer literal is
added, and any other token is silently ignored. -/
def basicRollToken (acc : Int) (tok : List Char) (g : Rng) : Except Err (Int × Rng) :=
  match rollPatternFullmatch tok with
  | some (sg, pre, dOpt, sides) =>
    let sign : Int := if sg = some '-' then -1 else 1
    let func := prefix_to_func pre
    let dice := dOpt.getD 1
    do
      let (rolls, g1) ← dloop dice sides g
      let v ← applyAgg func rolls
      .ok (acc + sign * v, g1)
  | none =>
    if isSignedIntTok tok then .ok (acc + intTokValue tok, g)
    else .ok (acc, g)

/-- The token loop of `basic_roll` over an explicit token list. -/
def basicRollGo : List (List Char) → Int → Rng → Except Err (Int × Rng)
  | [], acc, g => .ok (acc, g)
  | t :: ts, acc, g => do
    let (acc1, g1) ← basicRollToken acc t g
    basicRollGo ts acc1 g1

/-- `basic_roll(subroll)`: tokenize and fold the tokens starting from 0. -/
def basic_roll (s : List Char) (g : Rng) : Except Err (Int × Rng) :=
  basicRollGo (tokenize s) 0 g

/-- A clause result: the Python `int | list[int]` (recursively nestable
via the damage-suffix recursion). -/
inductive Val where
  | int : Int → Val
  | list : List Val → Val
deriving Repr

/-- The four captured groups of the clause pattern
`(?:(\d+)x)?(.*?)([<>=!]+\d+)?(-->x?.*?)?`: the repeat count (with its
default 1 applied), the lazy body, the comparison suffix split into its
operator characters and threshold, and the raw damage capture. -/
structure Clause where
  times : Nat
  body : List Char
  dc : Option (List Char × Nat)
  damage : Option (List Char)
deriving DecidableEq, Repr

/-- Does `t` start with the literal arrow `-->`? -/
def arrowStart (t : List Char) : Bool :=
  match t with
  | a :: b :: c :: _ => a = '-' && b = '-' && c = '>'
  | _ => false

/-- Can `([<>=!]+\d+)?(-->x?.*?)?` consume the remainder `t` entirely?
Greedy optional comparison first, then the optional damage group, whose
lazy `.*?` is forced by the anchoring to absorb everything left, so a
damage group succeeds exactly when the remainder starts with the literal
arrow `-->`. -/
def tryTail (t : List Char) : Option (Option (List Char × Nat) × Option (List Char)) :=
  let noDC : Option (Option (List Char × Nat) × Option (List Char)) :=
    if t.isEmpty then some (none, none)
    else if arrowStart t then some (none, some t) else none
  let cmps := t.takeWhile cmpChar
  let r1 := t.dropWhile cmpChar
  if cmps.isEmpty then noDC
  else
    let digs := r1.takeWhile isDig
    let r2 := r1.dropWhile isDig
    if digs.isEmpty then noDC
    else
      if r2.isEmpty then some (some (cmps, natValue digs), none)
      else if arrowStart r2 then some (some (cmps, natValue digs), some r2)
      else noDC

/-- The lazy group `(.*?)`: scan left to right for the shortest body whose
remainder is consumed by the optional comparison and damage groups. -/
def scanSplit : List Char → List Char × Option (List Char × Nat) × Option (List Char)
  | [] =>
    match tryTail [] with
    | some (dc, dmg) => ([], dc, dmg)
    | none => ([], none, none)
  | c :: rest =>
    match tryTail (c :: rest) with
    | some (dc, dmg) => ([], dc, dmg)
    | none =>
      let r := scanSplit rest
      (c :: r.1, r.2.1, r.2.2)

/-- `re.fullmatch(r"(?:(\d+)x)?(.*?)([<>=!]+\d+)?(-->x?.*?)?", subroll)`.
No group of the pattern can match a newline char, so a clause containing
one fails to match and the subsequent `matches.group(1)` raises
AttributeError on `None`. -/
def parseClause (s : List Char) : Except Err Clause :=
  if s.contains '\n' then .error .attributeError
  else
    let digs := s.takeWhile isDig
    let r := s.dropWhile isDig
    let (times, rest) :=
      match digs, r with
      | d :: ds, 'x' :: r1 => (natValue (d :: ds), r1)
      | _, _ => (1, s)
    let (body, dc, dmg) := scanSplit rest
    .ok ⟨times, body, dc, dmg⟩

/-- The `operators` table keyed by the comparison capture; a key outside
the table raises KeyError when first used. -/
def opLookup : List Char → Option (Int → Int → Bool)
  | ['<'] => some (fun a b => decide (a < b))
  | ['<', '='] => some (fun a b => decide (a ≤ b))
  | ['>'] => some (fun a b => decide (b < a))
  | ['>', '='] => some (fun a b => decide (b ≤ a))
  | ['=', '='] => some (fun a b => decide (a = b))
  | ['!', '='] => some (fun a b => decide (¬a = b))
  | _ => none

/-- The repetition loop: `for _ in range(times): subresult.append(basic_roll(subroll))`. -/
def repGo : Nat → List Char → Rng → Except Err (List Int × Rng)
  | 0, _, g => .ok ([], g)
  | n + 1, body, g => do
    let (v, g1) ← basic_roll body g
    let (vs, g2) ← repGo n body g1
    .ok (v :: vs, g2)

/-- The comparison-suffix step:
`subresult = [len([num for num in subresult if operators[op](num, int(dc))])]`.
The operator lookup happens inside the comprehension, so an unknown
operator only raises when the list is nonempty. -/
def dcStep : Option (List Char × Nat) → List Int → Except Err (List Int)
  | none, reps => .ok reps
  | some _, [] => .ok [(0 : Int)]
  | some (op, t), reps@(_ :: _) =>
    match opLookup op with
    | some f => .ok [((reps.filter (fun n => f n (t : Int))).length : Int)]
    | none => .error .keyError

/-- `str` of a Python integer. -/
def intChars : Int → List Char
  | .ofNat n => Nat.toDigits 10 n
  | .negSucc n => '-' :: Nat.toDigits 10 (n + 1)

/-- The final unwrapping `result[0] if len(result) == 1 else result`. -/
def unwrap : List Val → Val
  | [v] => v
  | vs => Val.list vs

/-- Spec-side restatement of the unwrapping rule, used to state claims
about the shape of the final result: a singleton collected-result list is
returned bare, anything else as the (flat) sequence itself. -/
def unwrapSpec : List Val → Val
  | [v] => v
  | vs => Val.list vs

/-- `text.replace(" ", "")`: only the space character is removed. -/
def removeSpaces (s : List Char) : List Char := s.filter (fun c => c ≠ ' ')

/-- `text.split(";")`, keeping empty pieces. -/
def splitSemi : List Char → List (List Char)
  | [] => [[]]
  | c :: rest =>
    if c = ';' then [] :: splitSemi rest
    else
      match splitSemi rest with
      | [] => [[c]]
      | grp :: gs => (c :: grp) :: gs

/-- The damage-suffix step, parameterised by the recursive evaluator:
`assert len(subresult) == 1` then
`subresult = [roll(str(subresult[0]) + damage[3:])]` (the capture minus
the literal arrow). -/
def damageStepW (rollF : List Char → Rng → Except Err (Val × Rng)) :
    Option (List Char) → List Int → Rng → Except Err (List Val × Rng)
  | none, sub, g => .ok (sub.map Val.int, g)
  | some dm, sub, g =>
    match sub with
    | [n] => do
      let (v, g1) ← rollF (intChars n ++ dm.drop 3) g
      .ok ([v], g1)
    | _ => .error .assertionError

/-- The clause loop of `roll`, parameterised by the recursive evaluator:
parse a clause, run the repetitions, apply the comparison suffix, apply
the damage suffix, and extend the result list. -/
def rollClausesW (rollF : List Char → Rng → Except Err (Val × Rng)) :
    List (List Char) → Rng → Except Err (List Val × Rng)
  | [], g => .ok ([], g)
  | c :: cs, g => do
    let cl ← parseClause c
    let (reps, g1) ← repGo cl.times cl.body g
    let sub ← dcStep cl.dc reps
    let (subF, g2) ← damageStepW rollF cl.damage sub g1
    let (rest, g3) ← rollClausesW rollF cs g2
    .ok (subF ++ rest, g3)

/-- `roll(text)`: strip spaces, split on `;`, evaluate the clauses in
order, and unwrap a singleton result list.  `fuel` bounds the
damage-suffix recursion depth (each recursive `roll` call uses one unit). -/
def roll : Nat → List Char → Rng → Except Err (Val × Rng)
  | 0, _, _ => .error .fuelOut
  | f + 1, text, g => do
    let (vs, g1) ← rollClausesW (roll f) (splitSemi (removeSpaces text)) g
    .ok (unwrap vs, g1)

/-! ### Spec-side enumerations used to state the claims -/

/-- The sign characters of an optional `([-+])?` group. -/
def sgnChars : Option Char → List Char
  | none => []
  | some c => [c]

/-- The numeric sign the code computes: `-1 if sign == "-" else 1`. -/
def sgnVal (sg : Option Char) : Int := if sg = some '-' then -1 else 1

/-- The six aggregation keywords, as an enumeration. -/
inductive Kw where
  | adv
  | advantage
  | dis
  | disadv
  | disadvantage
  | sum
deriving DecidableEq, Repr

/-- The characters of each keyword. -/
def kwChars : Kw → List Char
  | .adv => kwAdv
  | .advantage => kwAdvantage
  | .dis => kwDis
  | .disadv => kwDisadv
  | .disadvantage => kwDisadvantage
  | .sum => kwSum

/-- The aggregation the spec assigns to each keyword:
`adv`/`advantage` take the maximum, `dis`/`disadv`/`disadvantage` the
minimum, `sum` the total. -/
def kwAgg : Kw → Agg
  | .adv => .max
  | .advantage => .max
  | .dis => .min
  | .disadv => .min
  | .disadvantage => .min
  | .sum => .sum

/-- The spec-side aggregation of an optional keyword: no keyword means sum. -/
def optKwAgg : Option Kw → Agg
  | none => .sum
  | some k => kwAgg k

/-- The characters contributed by an optional keyword. -/
def optKwChars : Option Kw → List Char
  | none => []
  | some k => kwChars k

/-! ### Character-class and list helper lemmas -/

theorem ne_of_isDig {c a : Char} (h : isDig c = true) (ha : isDig a = false) : c ≠ a := by
  intro e
  rw [e, ha] at h
  cases h

theorem beq_false_of_isDig {c a : Char} (h : isDig c = true) (ha : isDig a = false) :
    (a == c) = false :=
  beq_eq_false_iff_ne.mpr (ne_of_isDig h ha).symm

theorem isAlnumC_of_isDig {c : Char} (h : isDig c = true) : isAlnumC c = true := by
  simp [isAlnumC, h]

theorem cmpChar_false_of_isDig {c : Char} (h : isDig c = true) : cmpChar c = false := by
  have h1 := ne_of_isDig h (a := '<') (by decide)
  have h2 := ne_of_isDig h (a := '>') (by decide)
  have h3 := ne_of_isDig h (a := '=') (by decide)
  have h4 := ne_of_isDig h (a := '!') (by decide)
  simp [cmpChar, h1, h2, h3, h4]

theorem takeWhile_of_all {p : Char → Bool} :
    ∀ {l : List Char}, l.all p = true → l.takeWhile p = l := by
  intro l
  induction l with
  | nil => simp
  | cons c rest ih =>
    intro h
    rw [List.all_cons, Bool.and_eq_true] at h
    rw [List.takeWhile_cons_of_pos h.1, ih h.2]

theorem dropWhile_of_all {p : Char → Bool} :
    ∀ {l : List Char}, l.all p = true → l.dropWhile p = [] := by
  intro l
  induction l with
  | nil => simp
  | cons c rest ih =>
    intro h
    rw [List.all_cons, Bool.and_eq_true] at h
    rw [List.dropWhile_cons_of_pos h.1, ih h.2]

theorem takeWhile_append_stop {p : Char → Bool} {l : List Char} {c : Char} (r : List Char)
    (hl : l.all p = true) (hc : p c = false) :
    (l ++ c :: r).takeWhile p = l := by
  induction l with
  | nil => simp [List.takeWhile_cons_of_neg, hc]
  | cons a as ih =>
    rw [List.all_cons, Bool.and_eq_true] at hl
    rw [List.cons_append, List.takeWhile_cons_of_pos hl.1, ih hl.2]

theorem dropWhile_append_stop {p : Char → Bool} {l : List Char} {c : Char} (r : List Char)
    (hl : l.all p = true) (hc : p c = false) :
    (l ++ c :: r).dropWhile p = c :: r := by
  induction l with
  | nil => simp [List.dropWhile_cons_of_neg, hc]
  | cons a as ih =>
    rw [List.all_cons, Bool.and_eq_true] at hl
    rw [List.cons_append, List.dropWhile_cons_of_pos hl.1, ih hl.2]

theorem tokenizeGo_run {rest : List Char} (h : rest.all isAlnumC = true) :
    ∀ acc, tokenizeGo (some acc) rest = [acc ++ rest] := by
  induction rest with
  | nil => intro acc; simp [tokenizeGo]
  | cons c r ih =>
    intro acc
    rw [List.all_cons, Bool.and_eq_true] at h
    unfold tokenizeGo
    rw [if_pos h.1, ih h.2]
    simp

theorem tokenize_single {s : List Char} (hne : s ≠ []) (h : s.all isAlnumC = true) :
    tokenize s = [s] := by
  match s, hne with
  | c :: rest, _ =>
    rw [List.all_cons, Bool.and_eq_true] at h
    unfold tokenize tokenizeGo
    rw [if_pos h.1, tokenizeGo_run h.2]
    simp

/-! ### Lemmas about `roll_pattern.fullmatch` -/

theorem matchTail_digits {dsA dsB : List Char} (hA : dsA.all isDig = true)
    (hBne : dsB ≠ []) (hB : dsB.all isDig = true) :
    matchTail (dsA ++ 'd' :: dsB)
      = some (if dsA.isEmpty then none else some (natValue dsA), natValue dsB) := by
  match dsB, hBne with
  | b :: bs, _ =>
    unfold matchTail
    rw [takeWhile_append_stop _ hA (by decide), dropWhile_append_stop _ hA (by decide)]
    simp [hB]

theorem matchTail_stuck {c : Char} (t : List Char) (h1 : isDig c = false) (h2 : c ≠ 'd')
    (h3 : c ≠ 'D') : matchTail (c :: t) = none := by
  unfold matchTail
  rw [List.takeWhile_cons_of_neg (by simp [h1]), List.dropWhile_cons_of_neg (by simp [h1])]
  simp [h2, h3]

theorem matchTail_a (t : List Char) : matchTail ('a' :: t) = none :=
  matchTail_stuck t (by decide) (by decide) (by decide)

theorem isPre_self_append (p t : List Char) : isPre p (p ++ t) = true := by
  induction p with
  | nil => rfl
  | cons c cs ih => simp [isPre, ih]

theorem tryKeywords_digit_start {a : Char} (t : List Char) (ha : isDig a = true) :
    tryKeywords prefixStrings (a :: t) = none := by
  have h1 := beq_false_of_isDig ha (a := 'a') (by decide)
  have h2 := beq_false_of_isDig ha (a := 'd') (by decide)
  have h3 := beq_false_of_isDig ha (a := 's') (by decide)
  simp [tryKeywords, prefixStrings, kwAdv, kwAdvantage, kwDis, kwDisadv, kwDisadvantage,
    kwSum, isPre, h1, h2, h3]

theorem tryKeywords_d_digits {dsB : List Char} (hne : dsB ≠ []) (hB : dsB.all isDig = true) :
    tryKeywords prefixStrings ('d' :: dsB) = none := by
  match dsB, hne with
  | b :: bs, _ =>
    rw [List.all_cons, Bool.and_eq_true] at hB
    have h1 := beq_false_of_isDig hB.1 (a := 'i') (by decide)
    simp [tryKeywords, prefixStrings, kwAdv, kwAdvantage, kwDis, kwDisadv, kwDisadvantage,
      kwSum, isPre, h1]

theorem rollPat_AdB {sg : Option Char} (hsg : sg = none ∨ sg = some '+' ∨ sg = some '-')
    {dsA dsB : List Char} (hA : dsA.all isDig = true) (hBne : dsB ≠ [])
    (hB : dsB.all isDig = true) :
    rollPatternFullmatch (sgnChars sg ++ dsA ++ 'd' :: dsB)
      = some (sg, none, (if dsA.isEmpty then none else some (natValue dsA)), natValue dsB) := by
  have hkey : tryKeywords prefixStrings (dsA ++ 'd' :: dsB) = none := by
    match dsA with
    | [] => exact tryKeywords_d_digits hBne hB
    | a :: as =>
      rw [List.all_cons, Bool.and_eq_true] at hA
      exact tryKeywords_digit_start _ hA.1
  have hsplit : splitSign (sgnChars sg ++ dsA ++ 'd' :: dsB) = (sg, dsA ++ 'd' :: dsB) := by
    rcases hsg with rfl | rfl | rfl
    · match dsA with
      | [] => simp [sgnChars, splitSign]
      | a :: as =>
        rw [List.all_cons, Bool.and_eq_true] at hA
        have h1 := ne_of_isDig hA.1 (a := '+') (by decide)
        have h2 := ne_of_isDig hA.1 (a := '-') (by decide)
        simp [sgnChars, splitSign, h1, h2]
    · simp [sgnChars, splitSign]
    · simp [sgnChars, splitSign]
  unfold rollPatternFullmatch
  rw [hsplit]
  simp only [hkey, matchTail_digits hA hBne hB]

theorem tryKeywords_kw (k : Kw) {dsA dsB : List Char} (hA : dsA.all isDig = true)
    (hBne : dsB ≠ []) (hB : dsB.all isDig = true) :
    tryKeywords prefixStrings (kwChars k ++ dsA ++ 'd' :: dsB)
      = some (kwChars k, (if dsA.isEmpty then none else some (natValue dsA), natValue dsB)) := by
  have hmt := matchTail_digits hA hBne hB
  cases k <;>
    simp [tryKeywords, prefixStrings, kwChars, kwAdv, kwAdvantage, kwDis, kwDisadv,
      kwDisadvantage, kwSum, isPre, matchTail_a, hmt]

theorem rollPat_keyword (k : Kw) {sg : Option Char}
    (hsg : sg = none ∨ sg = some '+' ∨ sg = some '-')
    {dsA dsB : List Char} (hA : dsA.all isDig = true) (hBne : dsB ≠ [])
    (hB : dsB.all isDig = true) :
    rollPatternFullmatch (sgnChars sg ++ kwChars k ++ dsA ++ 'd' :: dsB)
      = some (sg, some (kwChars k),
          (if dsA.isEmpty then none else some (natValue dsA)), natValue dsB) := by
  have hkey := tryKeywords_kw k hA hBne hB
  have hsplit : splitSign (sgnChars sg ++ kwChars k ++ dsA ++ 'd' :: dsB)
      = (sg, kwChars k ++ dsA ++ 'd' :: dsB) := by
    rcases hsg with rfl | rfl | rfl
    · cases k <;>
        simp [sgnChars, splitSign, kwChars, kwAdv, kwAdvantage, kwDis, kwDisadv,
          kwDisadvantage, kwSum]
    · simp [sgnChars, splitSign]
    · simp [sgnChars, splitSign]
  unfold rollPatternFullmatch
  rw [hsplit]
  simp only [hkey]

/-! ### Randomness lemmas -/

theorem bindOk {α β : Type} (a : α) (f : α → Except Err β) :
    (Except.ok a >>= f) = f a := rfl

theorem dloop_spec {B : Nat} (hB : 1 ≤ B) :
    ∀ (n : Nat) (g : Rng), ∃ vs g1, dloop n B g = .ok (vs, g1) ∧ vs.length = n ∧
      (∀ v ∈ vs, 1 ≤ v ∧ v ≤ (B : Int)) ∧ g1.stream = g.stream ∧ g1.idx = g.idx + n := by
  intro n
  induction n with
  | zero => intro g; exact ⟨[], g, rfl, rfl, by simp, rfl, rfl⟩
  | succ m ih =>
    intro g
    have hBpos : (0 : Int) < (B : Int) := by exact_mod_cast hB
    obtain ⟨vs, g1, h1, h2, h3, h4, h5⟩ := ih ⟨g.stream, g.idx + 1⟩
    have hmod0 : 0 ≤ (g.stream g.idx : Int) % (B : Int) :=
      Int.emod_nonneg _ (ne_of_gt hBpos)
    have hmod1 : (g.stream g.idx : Int) % (B : Int) < (B : Int) :=
      Int.emod_lt_of_pos _ hBpos
    refine ⟨(1 + (g.stream g.idx : Int) % (B : Int)) :: vs, g1, ?_, ?_, ?_, ?_, ?_⟩
    · show (randint 1 (B : Int) g >>= fun x =>
        match x with
        | (v, ga) => dloop m B ga >>= fun y =>
          match y with
          | (ws, gb) => Except.ok (v :: ws, gb)) = _
      unfold randint
      rw [if_pos (by omega)]
      rw [bindOk]
      simp only [sub_add_cancel]
      rw [h1, bindOk]
    · simp [h2]
    · intro v hv
      rcases List.mem_cons.mp hv with rfl | hv
      · omega
      · exact h3 v hv
    · exact h4
    · simp only [] at h5
      omega

/-! ### Evaluation helper lemmas -/

/-- A concrete random source used by the closed witness theorems. -/
def g0 : Rng := ⟨fun _ => 0, 0⟩

/-- A second concrete random source whose raw draws are 0, 1, 2, …. -/
def gId : Rng := ⟨fun k => k, 0⟩

theorem basicRollGo_single (t : List Char) (acc : Int) (g : Rng) :
    basicRollGo [t] acc g = basicRollToken acc t g := by
  unfold basicRollGo
  rcases h : basicRollToken acc t g with e | p
  · rfl
  · rcases p with ⟨a, g1⟩
    rfl

theorem basicRollToken_matched {tok : List Char} {sg : Option Char}
    {pre : Option (List Char)} {dOpt : Option Nat} {sides : Nat}
    (hpat : rollPatternFullmatch tok = some (sg, pre, dOpt, sides))
    (acc : Int) (g : Rng) :
    basicRollToken acc tok g =
      (do
        let (rolls, g1) ← dloop (dOpt.getD 1) sides g
        let v ← applyAgg (prefix_to_func pre) rolls
        Except.ok (acc + (if sg = some '-' then -1 else 1) * v, g1)) := by
  unfold basicRollToken
  rw [hpat]

theorem roll_2d12_10 (h : Rng) : ∃ a b h2, dloop 2 12 h = .ok ([a, b], h2) ∧
    roll 2 ("2d12+10".toList) h = .ok (.int (a + b + 10), h2) := by
  refine ⟨1 + (h.stream h.idx : Int) % 12, 1 + (h.stream (h.idx + 1) : Int) % 12,
    ⟨h.stream, h.idx + 2⟩, rfl, ?_⟩
  have e : 0 + 1 * ((1 + (h.stream h.idx : Int) % 12) +
        ((1 + (h.stream (h.idx + 1) : Int) % 12) + 0)) + 10
      = (1 + (h.stream h.idx : Int) % 12) + (1 + (h.stream (h.idx + 1) : Int) % 12) + 10 := by
    ring
  calc roll 2 ("2d12+10".toList) h
      = .ok (.int (0 + 1 * ((1 + (h.stream h.idx : Int) % 12) +
          ((1 + (h.stream (h.idx + 1) : Int) % 12) + 0)) + 10), ⟨h.stream, h.idx + 2⟩) := rfl
    _ = .ok (.int ((1 + (h.stream h.idx : Int) % 12) +
          (1 + (h.stream (h.idx + 1) : Int) % 12) + 10), ⟨h.stream, h.idx + 2⟩) := by rw [e]

/-! ### The claims -/

/-- C1: a dice term `AdB` with `A, B ≥ 1` draws exactly `A` values from
the random source, each in `[1, B]`, advances the source by `A` draws,
and with no aggregation prefix contributes their sum; moreover
`evaluate("2d12+10")` with draws `[a, b]` returns `a + b + 10`. -/
theorem C1_basic_roll_AdB {dsA dsB : List Char} {A B : Nat}
    (hAne : dsA ≠ []) (hAdig : dsA.all isDig = true) (hAval : natValue dsA = A)
    (hBne : dsB ≠ []) (hBdig : dsB.all isDig = true) (hBval : natValue dsB = B)
    (_hA1 : 1 ≤ A) (hB1 : 1 ≤ B) (g : Rng) :
    ∃ vs g1, dloop A B g = .ok (vs, g1) ∧ vs.length = A ∧
      (∀ v ∈ vs, 1 ≤ v ∧ v ≤ (B : Int)) ∧ g1.idx = g.idx + A ∧
      basic_roll (dsA ++ 'd' :: dsB) g = .ok (vs.sum, g1) ∧
      (∀ h : Rng, ∃ a b h2, dloop 2 12 h = .ok ([a, b], h2) ∧
        roll 2 ("2d12+10".toList) h = .ok (.int (a + b + 10), h2)) := by
  obtain ⟨vs, g1, h1, h2, h3, h4, h5⟩ := dloop_spec hB1 A g
  have hEmp : dsA.isEmpty = false := by
    match dsA, hAne with
    | a :: as, _ => rfl
  have hpat : rollPatternFullmatch (dsA ++ 'd' :: dsB)
      = some (none, none, if dsA.isEmpty then none else some (natValue dsA), natValue dsB) :=
    rollPat_AdB (Or.inl rfl) hAdig hBne hBdig
  rw [hEmp] at hpat
  simp only [Bool.false_eq_true, if_false, hAval, hBval] at hpat
  have halnum : (dsA ++ 'd' :: dsB).all isAlnumC = true := by
    rw [List.all_append, Bool.and_eq_true]
    refine ⟨List.all_eq_true.mpr fun c hc => isAlnumC_of_isDig (List.all_eq_true.mp hAdig c hc), ?_⟩
    rw [List.all_cons, Bool.and_eq_true]
    exact ⟨by decide, List.all_eq_true.mpr fun c hc => isAlnumC_of_isDig (List.all_eq_true.mp hBdig c hc)⟩
  have htok : tokenize (dsA ++ 'd' :: dsB) = [dsA ++ 'd' :: dsB] :=
    tokenize_single (by simp) halnum
  refine ⟨vs, g1, h1, h2, h3, by omega, ?_, roll_2d12_10⟩
  unfold basic_roll
  rw [htok, basicRollGo_single, basicRollToken_matched hpat]
  simp only [Option.getD_some]
  rw [h1, bindOk]
  show (applyAgg (prefix_to_func none) vs >>= fun v => Except.ok (0 + 1 * v, g1))
      = Except.ok (vs.sum, g1)
  show (Except.ok vs.sum >>= fun v => Except.ok (0 + 1 * v, g1)) = Except.ok (vs.sum, g1)
  rw [bindOk]
  simp

/-- Witness for C1 at the concrete term `2d12` with the all-zero stream. -/
theorem C1_basic_roll_AdB_witness :
    ∃ vs g1, dloop 2 12 g0 = .ok (vs, g1) ∧ vs.length = 2 ∧
      (∀ v ∈ vs, 1 ≤ v ∧ v ≤ (12 : Int)) ∧ g1.idx = g0.idx + 2 ∧
      basic_roll ("2".toList ++ 'd' :: "12".toList) g0 = .ok (vs.sum, g1) ∧
      (∀ h : Rng, ∃ a b h2, dloop 2 12 h = .ok ([a, b], h2) ∧
        roll 2 ("2d12+10".toList) h = .ok (.int (a + b + 10), h2)) :=
  @C1_basic_roll_AdB ("2".toList) ("12".toList) 2 12 (by decide) (by decide) rfl
    (by decide) (by decide) rfl (by decide) (by decide) g0

/-- C2: for every dice term the aggregation applied to the rolled values
is the one named by the prefix keyword (`sum` and no prefix give the sum,
`adv`/`advantage` the maximum, `dis`/`disadv`/`disadvantage` the
minimum), and the aggregated value times the term's sign (default `+1`)
is added to the running total. -/
theorem C2_aggregation (k : Option Kw) (sg : Option Char)
    (hsg : sg = none ∨ sg = some '+' ∨ sg = some '-')
    {dsA dsB : List Char} (hAdig : dsA.all isDig = true)
    (hBne : dsB ≠ []) (hBdig : dsB.all isDig = true)
    (acc : Int) (g : Rng) {vs : List Int} {g1 : Rng} {v : Int}
    (hroll : dloop (if dsA.isEmpty then 1 else natValue dsA) (natValue dsB) g = .ok (vs, g1))
    (hagg : applyAgg (optKwAgg k) vs = .ok v) :
    basicRollToken acc (sgnChars sg ++ optKwChars k ++ dsA ++ 'd' :: dsB) g
      = .ok (acc + sgnVal sg * v, g1) := by
  have hgetD : (if dsA.isEmpty then none else some (natValue dsA)).getD 1
      = (if dsA.isEmpty then 1 else natValue dsA) := by
    cases hh : dsA.isEmpty <;> simp
  cases k with
  | none =>
    have hpat : rollPatternFullmatch (sgnChars sg ++ dsA ++ 'd' :: dsB)
        = some (sg, none, if dsA.isEmpty then none else some (natValue dsA), natValue dsB) :=
      rollPat_AdB hsg hAdig hBne hBdig
    have hagg2 : applyAgg (prefix_to_func none) vs = .ok v := hagg
    simp only [optKwChars, List.append_nil]
    rw [basicRollToken_matched hpat, hgetD, hroll, bindOk]
    show (applyAgg (prefix_to_func none) vs >>= fun w =>
      Except.ok (acc + (if sg = some '-' then -1 else 1) * w, g1)) = _
    rw [hagg2, bindOk]
    rfl
  | some kk =>
    have hpat : rollPatternFullmatch (sgnChars sg ++ kwChars kk ++ dsA ++ 'd' :: dsB)
        = some (sg, some (kwChars kk),
            if dsA.isEmpty then none else some (natValue dsA), natValue dsB) :=
      rollPat_keyword kk hsg hAdig hBne hBdig
    have hagg2 : applyAgg (prefix_to_func (some (kwChars kk))) vs = .ok v := by
      have : prefix_to_func (some (kwChars kk)) = optKwAgg (some kk) := by
        cases kk <;> rfl
      rw [this]
      exact hagg
    simp only [optKwChars]
    rw [basicRollToken_matched hpat, hgetD, hroll, bindOk]
    show (applyAgg (prefix_to_func (some (kwChars kk))) vs >>= fun w =>
      Except.ok (acc + (if sg = some '-' then -1 else 1) * w, g1)) = _
    rw [hagg2, bindOk]
    rfl

/-- Witness for C2 at the term `-adv3d20` with the all-zero stream. -/
theorem C2_aggregation_witness :
    basicRollToken 5 (sgnChars (some '-') ++ optKwChars (some .adv) ++ "3".toList
        ++ 'd' :: "20".toList) g0
      = .ok (5 + sgnVal (some '-') * 1, ⟨g0.stream, 3⟩) :=
  @C2_aggregation (some Kw.adv) (some '-') (Or.inr (Or.inr rfl)) ("3".toList) ("20".toList)
    (by decide) (by decide) (by decide) 5 g0 [1, 1, 1] ⟨g0.stream, 3⟩ 1 rfl rfl

theorem basicRollGo_cons (t : List Char) (ts : List (List Char)) (acc : Int) (g : Rng) :
    basicRollGo (t :: ts) acc g
      = (basicRollToken acc t g >>= fun p => basicRollGo ts p.1 p.2) := by
  conv_lhs => rw [basicRollGo]

theorem basicRollToken_unmatched {t : List Char} (h1 : rollPatternFullmatch t = none)
    (h2 : isSignedIntTok t = false) (acc : Int) (g : Rng) :
    basicRollToken acc t g = .ok (acc, g) := by
  unfold basicRollToken
  rw [h1]
  simp [h2]

/-- C5 (amended): a token of a clause body that fails both the dice-term
pattern and the signed-integer pattern is silently dropped: it
contributes nothing and consumes no randomness, and the token loop moves
on.  (Evaluation of the remaining tokens need not complete normally: a
matched dice term can itself raise, see the counterexample.) -/
theorem C5_amended_dropped_token {t : List Char} (h1 : rollPatternFullmatch t = none)
    (h2 : isSignedIntTok t = false) (acc : Int) (g : Rng) :
    basicRollToken acc t g = .ok (acc, g) :=
  basicRollToken_unmatched h1 h2 acc g

/-- Witness for the amended C5 at the garbage token `qq`. -/
theorem C5_amended_dropped_token_witness :
    basicRollToken 7 ("qq".toList) g0 = .ok (7, g0) :=
  C5_amended_dropped_token (by decide) (by decide) 7 g0

/-- C5 counterexample: in `qq+2d0` the only token failing both patterns
(`qq`) is dropped, yet evaluation does not complete normally: the
remaining token `+2d0` matches the dice pattern and `randint(1, 0)`
raises ValueError. -/
theorem C5_counterexample :
    rollPatternFullmatch ("qq".toList) = none ∧ isSignedIntTok ("qq".toList) = false ∧
    roll 2 ("qq+2d0".toList) g0 = .error .valueError :=
  ⟨rfl, rfl, rfl⟩

/-- A token recognised by `basic_roll`: it matches the dice-term pattern
or the signed-integer pattern. -/
def recognizedTok (t : List Char) : Bool :=
  (rollPatternFullmatch t).isSome || isSignedIntTok t

/-- C9: dropping the unrecognised tokens from a token list changes
neither the accumulated result nor the random-source state: garbage
tokens contribute zero and consume no draws. -/
theorem C9_garbage_tokens_dropped (ts : List (List Char)) (acc : Int) (g : Rng) :
    basicRollGo ts acc g = basicRollGo (ts.filter recognizedTok) acc g := by
  induction ts generalizing acc g with
  | nil => rfl
  | cons t ts ih =>
    by_cases h : recognizedTok t = true
    · rw [List.filter_cons_of_pos h, basicRollGo_cons, basicRollGo_cons]
      rcases htok : basicRollToken acc t g with e | ⟨a1, gg1⟩
      · rfl
      · rw [bindOk]
        exact ih a1 gg1
    · have hb : recognizedTok t = false := by
        cases hh : recognizedTok t
        · rfl
        · exact absurd hh h
      have h1 : rollPatternFullmatch t = none := by
        rcases hh : rollPatternFullmatch t with _ | p
        · rfl
        · rw [recognizedTok, hh] at hb
          simp at hb
      have h2 : isSignedIntTok t = false := by
        rw [recognizedTok, h1] at hb
        simpa using hb
      rw [List.filter_cons_of_neg (by rw [hb]; simp), basicRollGo_cons,
        basicRollToken_unmatched h1 h2, bindOk]
      exact ih acc g

/-- C6: two runs of the evaluator on the same text with identically
seeded random sources (same stream, same position) return identical
results, including any nested recursive evaluation from a damage
suffix. -/
theorem C6_determinism (f : Nat) (t : List Char) (g1 g2 : Rng)
    (hs : g1.stream = g2.stream) (hi : g1.idx = g2.idx) :
    roll f t g1 = roll f t g2 := by
  rcases g1 with ⟨s1, i1⟩
  rcases g2 with ⟨s2, i2⟩
  simp only [] at hs hi
  rw [hs, hi]

/-- Witness for C6: a damage-suffix expression evaluated twice from the
same seeded source. -/
theorem C6_determinism_witness :
    roll 3 ("2xd6>1-->+5".toList) g0 = roll 3 ("2xd6>1-->+5".toList) ⟨g0.stream, g0.idx⟩ :=
  C6_determinism 3 ("2xd6>1-->+5".toList) g0 ⟨g0.stream, g0.idx⟩ rfl rfl

/-- C8 (amended): the evaluator deletes exactly the space characters
(U+0020) from its input before any parsing, so two inputs with the same
space-free projection evaluate identically from the same source. -/
theorem C8_amended_spaces (f : Nat) (t1 t2 : List Char) (g : Rng)
    (h : removeSpaces t1 = removeSpaces t2) : roll f t1 g = roll f t2 g := by
  cases f with
  | zero => rfl
  | succ f =>
    unfold roll
    rw [h]

/-- Witness for the amended C8. -/
theorem C8_amended_spaces_witness :
    roll 2 ("d 6".toList) g0 = roll 2 (" d6".toList) g0 :=
  C8_amended_spaces 2 ("d 6".toList) (" d6".toList) g0 rfl

/-- C8 counterexample: `"2 d 6"` and `"2\td\t6"` differ only in
whitespace characters (space vs tab in the same positions), but only the
spaces are stripped: the first input evaluates the dice term `2d6`, the
second adds the literals 2 and 6 (the lone `d` is dropped), so the
results differ. -/
theorem C8_counterexample :
    roll 2 ("2 d 6".toList) g0 ≠ roll 2 ("2\td\t6".toList) g0 := by
  intro h
  have h1 : roll 2 ("2 d 6".toList) g0 = .ok (.int 2, ⟨g0.stream, 2⟩) := rfl
  have h2 : roll 2 ("2\td\t6".toList) g0 = .ok (.int 8, g0) := rfl
  rw [h1, h2] at h
  simp at h

/-- C3 (amended): when the concatenation of all clauses' result lists has
exactly one element, `roll` returns that element bare (even when it is
itself a sequence produced by a damage suffix); otherwise it returns the
flat concatenation of the per-clause result lists, in which repetition
results are spliced at the top level and only a damage result that is a
sequence appears as a nested sequence. -/
theorem C3_amended_unwrap (f : Nat) (text : List Char) (g : Rng) (vs : List Val) (g1 : Rng)
    (h : rollClausesW (roll f) (splitSemi (removeSpaces text)) g = .ok (vs, g1)) :
    roll (f + 1) text g = .ok (unwrapSpec vs, g1) := by
  have hr : roll (f + 1) text g
      = (rollClausesW (roll f) (splitSemi (removeSpaces text)) g
          >>= fun p => Except.ok (unwrap p.1, p.2)) := by
    conv_lhs => rw [roll]
  rw [hr, h, bindOk]
  rcases vs with _ | ⟨v, _ | ⟨w, ws⟩⟩ <;> rfl

/-- Witness for the amended C3: one clause with two repetitions returns
the flat two-element list. -/
theorem C3_amended_unwrap_witness :
    roll 2 ("2xd6".toList) g0 = .ok (Val.list [Val.int 1, Val.int 1], ⟨g0.stream, 2⟩) :=
  C3_amended_unwrap 1 ("2xd6".toList) g0 [Val.int 1, Val.int 1] ⟨g0.stream, 2⟩ rfl

/-- C3 counterexample: the single clause `2xd6` produces the sequence
`[1, 1]` (with the all-zero stream); the code returns it flattened as the
top-level result, not nested as its own sequence inside the per-clause
result list, contradicting the claimed nesting. -/
theorem C3_counterexample :
    roll 2 ("2xd6".toList) g0 = .ok (Val.list [Val.int 1, Val.int 1], ⟨g0.stream, 2⟩) ∧
    Val.list [Val.int 1, Val.int 1] ≠ Val.list [Val.list [Val.int 1, Val.int 1]] := by
  refine ⟨rfl, ?_⟩
  intro h
  injection h with h1
  injection h1 with h2
  injection h2

theorem rollClausesW_cons_ok (rollF : List Char → Rng → Except Err (Val × Rng))
    (c : List Char) (cs : List (List Char)) (g : Rng) {cl : Clause} {reps : List Int}
    {g1 : Rng} (hp : parseClause c = .ok cl)
    (hrep : repGo cl.times cl.body g = .ok (reps, g1)) :
    rollClausesW rollF (c :: cs) g
      = (dcStep cl.dc reps >>= fun sub =>
          damageStepW rollF cl.damage sub g1 >>= fun p =>
          rollClausesW rollF cs p.2 >>= fun q => Except.ok (p.1 ++ q.1, q.2)) := by
  conv_lhs => rw [rollClausesW]
  rw [hp, bindOk, hrep, bindOk]

theorem damageStepW_single (rollF : List Char → Rng → Except Err (Val × Rng))
    (dm : List Char) (n : Int) (g : Rng) :
    damageStepW rollF (some dm) [n] g
      = (rollF (intChars n ++ dm.drop 3) g >>= fun p => Except.ok ([p.1], p.2)) := by
  conv_lhs => rw [damageStepW]

theorem damageStepW_assert (rollF : List Char → Rng → Except Err (Val × Rng))
    (dm : List Char) {sub : List Int} (h : sub.length ≠ 1) (g : Rng) :
    damageStepW rollF (some dm) sub g = .error .assertionError := by
  rcases sub with _ | ⟨x, _ | ⟨y, ys⟩⟩
  · simp [damageStepW]
  · exact absurd rfl h
  · simp [damageStepW]

/-- C7 (amended): a damage suffix can be captured with or without a
comparison suffix; whenever the subresult list before the damage step is
the single integer `n`, the clause's final result is the recursive
evaluation of the synthesized expression `str(n) + damage[3:]` (the
capture minus the literal arrow). -/
theorem C7_amended_damage (f : Nat) (c : List Char) (cs : List (List Char)) (g : Rng)
    (cl : Clause) (dm : List Char) (n : Int) (g1 : Rng) (v : Val) (g2 : Rng)
    (rest : List Val) (g3 : Rng) (reps : List Int)
    (hp : parseClause c = .ok cl) (hdm : cl.damage = some dm)
    (hrep : repGo cl.times cl.body g = .ok (reps, g1))
    (hdc : dcStep cl.dc reps = .ok [n])
    (hroll : roll f (intChars n ++ dm.drop 3) g1 = .ok (v, g2))
    (hrest : rollClausesW (roll f) cs g2 = .ok (rest, g3)) :
    rollClausesW (roll f) (c :: cs) g = .ok (v :: rest, g3) := by
  rw [rollClausesW_cons_ok (roll f) c cs g hp hrep, hdc, bindOk, hdm, damageStepW_single]
  simp only [hroll, bindOk, hrest]
  rfl

/-- Witness for the amended C7: `d6-->+1` (no comparison suffix) rolls 1
with the all-zero stream and evaluates `1+1`. -/
theorem C7_amended_damage_witness :
    rollClausesW (roll 2) ["d6-->+1".toList] g0 = .ok ([Val.int 2], ⟨g0.stream, 1⟩) :=
  C7_amended_damage 2 ("d6-->+1".toList) [] g0
    ⟨1, "d6".toList, none, some ("-->+1".toList)⟩ ("-->+1".toList)
    1 ⟨g0.stream, 1⟩ (Val.int 2) ⟨g0.stream, 1⟩ [] ⟨g0.stream, 1⟩ [1]
    rfl rfl rfl rfl rfl rfl

/-- C7 counterexample: the clause `d6-->+1` has no comparison suffix yet
its damage suffix is captured, and the damage expression is evaluated
(the claim asserts the arrow is matched only alongside a comparison
suffix). -/
theorem C7_counterexample :
    parseClause ("d6-->+1".toList)
      = .ok ⟨1, "d6".toList, none, some ("-->+1".toList)⟩ ∧
    roll 3 ("d6-->+1".toList) g0 = .ok (.int 2, ⟨g0.stream, 1⟩) :=
  ⟨rfl, rfl⟩

/-- C10: when a damage suffix was captured but the subresult list does
not have exactly one element (for instance a repeat count above 1 with
no comparison suffix), the evaluator raises AssertionError instead of
evaluating the damage expression. -/
theorem C10_assertion (f : Nat) (c : List Char) (cs : List (List Char)) (g : Rng)
    (cl : Clause) (dm : List Char) (reps : List Int) (g1 : Rng) (sub : List Int)
    (hp : parseClause c = .ok cl) (hdm : cl.damage = some dm)
    (hrep : repGo cl.times cl.body g = .ok (reps, g1))
    (hdc : dcStep cl.dc reps = .ok sub) (hlen : sub.length ≠ 1) :
    rollClausesW (roll f) (c :: cs) g = .error .assertionError := by
  rw [rollClausesW_cons_ok (roll f) c cs g hp hrep, hdc, bindOk, hdm,
    damageStepW_assert (roll f) dm hlen]
  rfl

/-- Witness for C10: `2xd6-->+1` repeats twice without a comparison
suffix, so the damage step hits a two-element subresult. -/
theorem C10_assertion_witness :
    rollClausesW (roll 1) ["2xd6-->+1".toList] g0 = .error .assertionError :=
  C10_assertion 1 ("2xd6-->+1".toList) [] g0
    ⟨2, "d6".toList, none, some ("-->+1".toList)⟩ ("-->+1".toList)
    [1, 1] ⟨g0.stream, 2⟩ [1, 1] rfl rfl rfl rfl (by decide)

/-! ### Clause-level parsing lemmas for the threshold-count claim -/

/-- A body character that keeps the clause pattern from stopping early:
not a comparison char (also rules out an arrow `-->`, whose third char is
a comparison char), not a clause separator, not a newline, not a space. -/
def okBodyC (c : Char) : Bool :=
  !cmpChar c && !(c = ';') && !(c = '\x0a') && !(c = ' ')

/-- Does the list end with the two characters `--`?  (A body with this
suffix would fuse with a following `>` into a damage arrow.) -/
def endsDD (l : List Char) : Bool :=
  match l with
  | [a, b] => a = '-' && b = '-'
  | _ :: rest => endsDD rest
  | [] => false

theorem takeWhile_none {p : Char → Bool} {l : List Char} (h : ∀ c ∈ l, p c = false) :
    l.takeWhile p = [] ∧ l.dropWhile p = l := by
  match l with
  | [] => exact ⟨rfl, rfl⟩
  | c :: rest =>
    have hc : ¬p c = true := by
      rw [h c (List.mem_cons_self c rest)]
      simp
    exact ⟨List.takeWhile_cons_of_neg hc, List.dropWhile_cons_of_neg hc⟩

theorem splitSemi_no_semi {s : List Char} (h : ∀ c ∈ s, ¬c = ';') : splitSemi s = [s] := by
  induction s with
  | nil => rfl
  | cons c rest ih =>
    unfold splitSemi
    rw [if_neg (h c (List.mem_cons_self c rest)),
      ih (fun x hx => h x (List.mem_cons_of_mem c hx))]

theorem removeSpaces_id {s : List Char} (h : ∀ c ∈ s, ¬c = ' ') : removeSpaces s = s := by
  unfold removeSpaces
  rw [List.filter_eq_self]
  intro a ha
  simp [h a ha]

theorem contains_false {s : List Char} {a : Char} (h : ∀ c ∈ s, ¬c = a) :
    s.contains a = false := by
  induction s with
  | nil => rfl
  | cons c rest ih =>
    have hca : (a == c) = false :=
      beq_eq_false_iff_ne.mpr (fun e => h c (List.mem_cons_self c rest) e.symm)
    simp only [List.contains_cons, Bool.or_eq_false_iff]
    exact ⟨hca, ih (fun x hx => h x (List.mem_cons_of_mem c hx))⟩

theorem okBodyC_facts {c : Char} (h : okBodyC c = true) :
    cmpChar c = false ∧ ¬c = ';' ∧ ¬c = '\x0a' ∧ ¬c = ' ' := by
  unfold okBodyC at h
  rw [Bool.and_eq_true, Bool.and_eq_true, Bool.and_eq_true] at h
  refine ⟨?_, ?_, ?_, ?_⟩
  · rcases hh : cmpChar c
    · rfl
    · rw [hh] at h
      simp at h
  · intro e
    rw [e] at h
    simp at h
  · intro e
    rw [e] at h
    simp at h
  · intro e
    rw [e] at h
    simp at h

theorem arrowStart_eq (a b c : Char) (r : List Char) :
    arrowStart (a :: b :: c :: r)
      = ((a = '-' : Bool) && (b = '-' : Bool) && (c = '>' : Bool)) := rfl

theorem endsDD_pair (a b : Char) :
    endsDD [a, b] = ((a = '-' : Bool) && (b = '-' : Bool)) := rfl

theorem endsDD_long (a : Char) (b1 b2 : Char) (rest : List Char) :
    endsDD (a :: b1 :: b2 :: rest) = endsDD (b1 :: b2 :: rest) := rfl

theorem tryTail_none_cons {c : Char} {r : List Char} (h1 : cmpChar c = false)
    (h2 : arrowStart (c :: r) = false) : tryTail (c :: r) = none := by
  unfold tryTail
  rw [List.takeWhile_cons_of_neg (by simp [h1])]
  simp [h2]

theorem tryTail_gt {dsT : List Char} (hTne : dsT ≠ []) (hTd : dsT.all isDig = true) :
    tryTail ('>' :: dsT) = some (some (['>'], natValue dsT), none) := by
  have hTcmp := takeWhile_none (l := dsT) (p := cmpChar)
    (fun c hc => cmpChar_false_of_isDig (List.all_eq_true.mp hTd c hc))
  have hTdig : dsT.takeWhile isDig = dsT := takeWhile_of_all hTd
  have hTdrop : dsT.dropWhile isDig = [] := dropWhile_of_all hTd
  have hTemp : dsT.isEmpty = false := by
    match dsT, hTne with
    | t :: ts, _ => rfl
  unfold tryTail
  rw [List.takeWhile_cons_of_pos (by decide), List.dropWhile_cons_of_pos (by decide)]
  simp [hTcmp.1, hTcmp.2, hTdig, hTdrop, hTemp]

theorem scanSplit_stop {t : List Char} {dc : Option (List Char × Nat)}
    {dmg : Option (List Char)} (h : tryTail t = some (dc, dmg)) :
    scanSplit t = ([], dc, dmg) := by
  match t with
  | [] =>
    conv_lhs => rw [scanSplit]
    rw [h]
  | c :: rest =>
    conv_lhs => rw [scanSplit]
    rw [h]

theorem scanSplit_cons {c : Char} {rest : List Char} (h : tryTail (c :: rest) = none) :
    scanSplit (c :: rest)
      = (c :: (scanSplit rest).1, (scanSplit rest).2.1, (scanSplit rest).2.2) := by
  conv_lhs => rw [scanSplit]
  rw [h]

theorem scanSplit_DC {dsT : List Char} (hTne : dsT ≠ []) (hTd : dsT.all isDig = true) :
    ∀ {body : List Char}, body.all okBodyC = true → endsDD body = false →
      scanSplit (body ++ '>' :: dsT) = (body, some (['>'], natValue dsT), none) := by
  intro body
  induction body with
  | nil =>
    intro _ _
    rw [List.nil_append, scanSplit_stop (tryTail_gt hTne hTd)]
  | cons c b ih =>
    intro hb hdd
    rw [List.all_cons, Bool.and_eq_true] at hb
    have hcmp : cmpChar c = false := (okBodyC_facts hb.1).1
    have harr : arrowStart (c :: (b ++ '>' :: dsT)) = false := by
      match b with
      | [] =>
        match dsT, hTne with
        | t0 :: ts, _ =>
          show arrowStart (c :: '>' :: t0 :: ts) = false
          rw [arrowStart_eq]
          simp
      | [b1] =>
        show arrowStart (c :: b1 :: '>' :: dsT) = false
        rw [arrowStart_eq]
        rw [endsDD_pair] at hdd
        simp only [hdd, Bool.false_and]
      | b1 :: b2 :: brest =>
        have hb2 : okBodyC b2 = true := by
          have h2 := hb.2
          rw [List.all_cons, List.all_cons, Bool.and_eq_true, Bool.and_eq_true] at h2
          exact h2.2.1
        have hb2cmp : cmpChar b2 = false := (okBodyC_facts hb2).1
        have hb2gt : ¬b2 = '>' := by
          intro e
          rw [e] at hb2cmp
          simp [cmpChar] at hb2cmp
        show arrowStart (c :: b1 :: b2 :: (brest ++ '>' :: dsT)) = false
        rw [arrowStart_eq]
        simp [hb2gt]
    have hdd2 : endsDD b = false := by
      match b with
      | [] => rfl
      | [b1] => rfl
      | b1 :: b2 :: brest =>
        rw [endsDD_long] at hdd
        exact hdd
    rw [List.cons_append, scanSplit_cons (tryTail_none_cons hcmp harr),
      ih hb.2 hdd2]

theorem parseClause_NxT {dsN body dsT : List Char}
    (hNne : dsN ≠ []) (hNd : dsN.all isDig = true)
    (hTne : dsT ≠ []) (hTd : dsT.all isDig = true)
    (hb : body.all okBodyC = true) (hdd : endsDD body = false) :
    parseClause (dsN ++ 'x' :: (body ++ '>' :: dsT))
      = .ok ⟨natValue dsN, body, some (['>'], natValue dsT), none⟩ := by
  have hcontNl : (dsN ++ 'x' :: (body ++ '>' :: dsT)).contains '\x0a' = false := by
    apply contains_false
    intro cc hc
    rcases List.mem_append.mp hc with hc1 | hc2
    · exact ne_of_isDig (List.all_eq_true.mp hNd cc hc1) (by decide)
    · rcases List.mem_cons.mp hc2 with rfl | hc3
      · decide
      · rcases List.mem_append.mp hc3 with hc4 | hc5
        · exact (okBodyC_facts (List.all_eq_true.mp hb cc hc4)).2.2.1
        · rcases List.mem_cons.mp hc5 with rfl | hc6
          · decide
          · exact ne_of_isDig (List.all_eq_true.mp hTd cc hc6) (by decide)
  have htake : (dsN ++ 'x' :: (body ++ '>' :: dsT)).takeWhile isDig = dsN :=
    takeWhile_append_stop _ hNd (by decide)
  have hdrop : (dsN ++ 'x' :: (body ++ '>' :: dsT)).dropWhile isDig
      = 'x' :: (body ++ '>' :: dsT) :=
    dropWhile_append_stop _ hNd (by decide)
  unfold parseClause
  rw [hcontNl, htake, hdrop]
  match dsN, hNne with
  | d :: ds, _ =>
    simp only [Bool.false_eq_true, if_false]
    rw [scanSplit_DC hTne hTd hb hdd]

theorem bindErr {α β : Type} (e : Err) (f : α → Except Err β) :
    (Except.error e >>= f : Except Err β) = .error e := rfl

theorem repGo_length {body : List Char} : ∀ {n : Nat} {g : Rng} {reps : List Int} {g1 : Rng},
    repGo n body g = .ok (reps, g1) → reps.length = n := by
  intro n
  induction n with
  | zero =>
    intro g reps g1 h
    unfold repGo at h
    simp only [Except.ok.injEq, Prod.mk.injEq] at h
    rw [← h.1]
    rfl
  | succ m ih =>
    intro g reps g1 h
    unfold repGo at h
    rcases hbr : basic_roll body g with e | ⟨v, ga⟩
    · rw [hbr, bindErr] at h
      cases h
    · rw [hbr, bindOk] at h
      simp only [] at h
      rcases hrg : repGo m body ga with e2 | ⟨vs, gb⟩
      · rw [hrg, bindErr] at h
        cases h
      · rw [hrg, bindOk] at h
        simp only [Except.ok.injEq, Prod.mk.injEq] at h
        rw [← h.1, List.length_cons, ih hrg]

theorem dcStep_gt {reps : List Int} (hne : reps ≠ []) (T : Nat) :
    dcStep (some (['>'], T)) reps
      = .ok [((reps.filter (fun v => decide ((T : Int) < v))).length : Int)] := by
  match reps, hne with
  | r :: rs, _ => rfl

theorem damageStepW_none (rollF : List Char → Rng → Except Err (Val × Rng))
    (sub : List Int) (g : Rng) :
    damageStepW rollF none sub g = .ok (sub.map Val.int, g) := rfl

/-- C4: an expression made of the single clause `Nx(body)>T` with
`N ≥ 1` evaluates to the single bare integer counting how many of the
`N` repetitions of the basic roll of `body` exceed `T`, a count that
cannot exceed `N` (the comparison suffix replaces the list of
per-repetition rolls with this count).  The body hypotheses keep the lazy
clause pattern from stopping inside the body: no comparison characters,
no separators, no whitespace, and no trailing `--`. -/
theorem C4_threshold_count (f : Nat) {dsN body dsT : List Char} {N T : Nat} (g : Rng)
    {reps : List Int} {g1 : Rng}
    (hNne : dsN ≠ []) (hNd : dsN.all isDig = true) (hNv : natValue dsN = N) (hN1 : 1 ≤ N)
    (hTne : dsT ≠ []) (hTd : dsT.all isDig = true) (hTv : natValue dsT = T)
    (hb : body.all okBodyC = true) (hdd : endsDD body = false)
    (hrep : repGo N body g = .ok (reps, g1)) :
    roll (f + 1) (dsN ++ 'x' :: (body ++ '>' :: dsT)) g
      = .ok (.int ((reps.filter (fun v => decide ((T : Int) < v))).length), g1) ∧
    (reps.filter (fun v => decide ((T : Int) < v))).length ≤ N := by
  have hparse : parseClause (dsN ++ 'x' :: (body ++ '>' :: dsT))
      = .ok ⟨N, body, some (['>'], T), none⟩ := by
    rw [parseClause_NxT hNne hNd hTne hTd hb hdd, hNv, hTv]
  have hrs : removeSpaces (dsN ++ 'x' :: (body ++ '>' :: dsT))
      = dsN ++ 'x' :: (body ++ '>' :: dsT) := by
    apply removeSpaces_id
    intro cc hc
    rcases List.mem_append.mp hc with hc1 | hc2
    · exact ne_of_isDig (List.all_eq_true.mp hNd cc hc1) (by decide)
    · rcases List.mem_cons.mp hc2 with rfl | hc3
      · decide
      · rcases List.mem_append.mp hc3 with hc4 | hc5
        · exact (okBodyC_facts (List.all_eq_true.mp hb cc hc4)).2.2.2
        · rcases List.mem_cons.mp hc5 with rfl | hc6
          · decide
          · exact ne_of_isDig (List.all_eq_true.mp hTd cc hc6) (by decide)
  have hss : splitSemi (dsN ++ 'x' :: (body ++ '>' :: dsT))
      = [dsN ++ 'x' :: (body ++ '>' :: dsT)] := by
    apply splitSemi_no_semi
    intro cc hc
    rcases List.mem_append.mp hc with hc1 | hc2
    · exact ne_of_isDig (List.all_eq_true.mp hNd cc hc1) (by decide)
    · rcases List.mem_cons.mp hc2 with rfl | hc3
      · decide
      · rcases List.mem_append.mp hc3 with hc4 | hc5
        · exact (okBodyC_facts (List.all_eq_true.mp hb cc hc4)).2.1
        · rcases List.mem_cons.mp hc5 with rfl | hc6
          · decide
          · exact ne_of_isDig (List.all_eq_true.mp hTd cc hc6) (by decide)
  have hrlen : reps.length = N := repGo_length hrep
  have hrne : reps ≠ [] := by
    intro e
    rw [e] at hrlen
    simp at hrlen
    omega
  have hrep2 : repGo (Clause.times ⟨N, body, some (['>'], T), none⟩)
      (Clause.body ⟨N, body, some (['>'], T), none⟩) g = .ok (reps, g1) := hrep
  have hclause : rollClausesW (roll f) [dsN ++ 'x' :: (body ++ '>' :: dsT)] g
      = .ok ([Val.int ((reps.filter (fun v => decide ((T : Int) < v))).length : Int)], g1) := by
    rw [rollClausesW_cons_ok (roll f) _ [] g hparse hrep2]
    have hdc : Clause.dc ⟨N, body, some (['>'], T), none⟩ = some (['>'], T) := rfl
    have hdm : Clause.damage ⟨N, body, some (['>'], T), none⟩ = none := rfl
    rw [hdc, hdm, dcStep_gt hrne T, bindOk, damageStepW_none, bindOk]
    rfl
  have hr : roll (f + 1) (dsN ++ 'x' :: (body ++ '>' :: dsT)) g
      = (rollClausesW (roll f)
          (splitSemi (removeSpaces (dsN ++ 'x' :: (body ++ '>' :: dsT)))) g
          >>= fun p => Except.ok (unwrap p.1, p.2)) := by
    conv_lhs => rw [roll]
  refine ⟨?_, ?_⟩
  · rw [hr, hrs, hss, hclause, bindOk]
    rfl
  · calc (reps.filter (fun v => decide ((T : Int) < v))).length
        ≤ reps.length := List.length_filter_le _ _
      _ = N := hrlen

/-- Witness for C4: `3xd6>1` with the identity stream rolls 1, 2, 3 and
counts two values above 1. -/
theorem C4_threshold_count_witness :
    roll (1 + 1) ("3".toList ++ 'x' :: ("d6".toList ++ '>' :: "1".toList)) gId
      = .ok (.int (([1, 2, 3].filter (fun v => decide ((1 : Int) < v))).length),
          ⟨gId.stream, 3⟩) ∧
    (([1, 2, 3] : List Int).filter (fun v => decide ((1 : Int) < v))).length ≤ 3 :=
  C4_threshold_count 1 gId (by decide) (by decide) rfl (by decide) (by decide) (by decide)
    rfl (by decide) (by decide) rfl

end Roll
